import Mathlib

/-!
Verification of `src/main/pgdb/migrations/postgres/generate_migration.py`,
a build-time generator that expands a SQL template once per table name
derived from JSON schema manifests and writes the result to a single
migration file.

Strings are modelled as `List Char`.  Python's `str.replace(old, new)`
(left-to-right, non-overlapping, single pass) is modelled by `pyReplace`,
defined with a fuel argument equal to the string length so that it is
structurally recursive and computable by `rfl`/`decide`.  Python's
`str.lower()` is modelled as `List.map Char.toLower` (the ASCII fragment,
which is what core `Char.toLower` implements and what Python does on
ASCII input).  The fallible parts of the script (missing template file,
missing manifest directory, `json.load` failure, `KeyError` on
`entry["ProtoDefName"]`) are modelled with `Except GenError`; the final
`file.write` is modelled by `runFile`, a function from the previous
content of the output file to its content after the run.
-/

/-- Python `s.replace(pat, rep)` scanning with explicit fuel.  At each
position, if `pat` is a (nonempty) prefix of the remaining input the
occurrence is consumed and `rep` is emitted, otherwise one character is
copied.  Fuel `≥ length of the input` makes the fuel bound unreachable. -/
def pyReplaceAux (pat rep : List Char) : Nat → List Char → List Char
  | 0, s => s
  | _ + 1, [] => []
  | n + 1, c :: rest =>
    if pat ≠ [] ∧ pat.isPrefixOf (c :: rest) then
      rep ++ pyReplaceAux pat rep n (rest.drop (pat.length - 1))
    else
      c :: pyReplaceAux pat rep n rest

/-- Python `s.replace(pat, rep)` for nonempty `pat`: replace every
left-to-right non-overlapping occurrence of `pat` in `s` by `rep`. -/
def pyReplace (pat rep s : List Char) : List Char :=
  pyReplaceAux pat rep s.length s

/-- The same left-to-right non-overlapping scan, returning the fragments
of `s` strictly between consecutive occurrences of `pat` (fuelled like
`pyReplaceAux`). -/
def pySplitAux (pat : List Char) : Nat → List Char → List (List Char)
  | 0, s => [s]
  | _ + 1, [] => [[]]
  | n + 1, c :: rest =>
    if pat ≠ [] ∧ pat.isPrefixOf (c :: rest) then
      [] :: pySplitAux pat n (rest.drop (pat.length - 1))
    else
      match pySplitAux pat n rest with
      | [] => [[c]]
      | p :: ps => (c :: p) :: ps

/-- Fragments of `s` between the occurrences of `pat` found by the
`pyReplace` scan. -/
def pySplit (pat s : List Char) : List (List Char) :=
  pySplitAux pat s.length s

/-- Join a list of fragments with a separator (no trailing separator). -/
def joinWith (sep : List Char) : List (List Char) → List Char
  | [] => []
  | [p] => p
  | p :: ps => p ++ sep ++ joinWith sep ps

/-- The literal substitution token of the template,
`"{table_name}"` in the source. -/
def tokenChars : List Char := "{table_name}".toList

/-- The initial value of `output_code` in `generate_migration`: the fixed
header comment followed by a blank line. -/
def headerChars : List Char :=
  "-- Generated SQL code for configuring timeseries maintenance\n\n".toList

/-- `table_name = entry["ProtoDefName"].replace(".", "_").lower()`. -/
def deriveTableName (p : List Char) : List Char :=
  (pyReplace ['.'] ['_'] p).map Char.toLower

/-- One JSON object of a manifest file.  The script reads exactly one
key, `entry["ProtoDefName"]`; `none` models a record lacking that key
(Python raises `KeyError`). -/
structure ManifestRecord where
  ProtoDefName : Option (List Char)
deriving DecidableEq

/-- The error outcomes of the script: `open(sql_template_path)` failing,
`os.listdir(manifests_dir)` failing, `json.load` failing, and
`entry["ProtoDefName"]` raising `KeyError`. -/
inductive GenError where
  | missingTemplate
  | missingManifestsDir
  | malformedManifest
  | missingProtoDefName
deriving DecidableEq

/-- The input of one run: the content of the template file (`none` when
the file is missing or unreadable), and the manifest directory listing
(`none` when the directory is missing); each listed file is `none` when
`json.load` fails on it, otherwise the parsed array of records. -/
structure GenInput where
  template : Option (List Char)
  manifestFiles : Option (List (Option (List ManifestRecord)))
deriving DecidableEq

/-- The inner loop `for entry in manifest_json: table_names.append(...)`:
derive one table name per record, aborting at the first record without a
`ProtoDefName` key. -/
def gatherFromFile : List ManifestRecord → Except GenError (List (List Char))
  | [] => .ok []
  | r :: rs =>
    match r.ProtoDefName with
    | none => .error .missingProtoDefName
    | some p =>
      match gatherFromFile rs with
      | .error e => .error e
      | .ok names => .ok (deriveTableName p :: names)

/-- The outer loop `for file_name in os.listdir(manifests_dir)`: parse
each file and accumulate the derived table names in listing order,
aborting at the first unparseable file or missing key. -/
def gatherTableNames : List (Option (List ManifestRecord)) → Except GenError (List (List Char))
  | [] => .ok []
  | none :: _ => .error .malformedManifest
  | some rs :: fs =>
    match gatherFromFile rs with
    | .error e => .error e
    | .ok names =>
      match gatherTableNames fs with
      | .error e => .error e
      | .ok rest => .ok (names ++ rest)

/-- The body of `generate_migration`: load the template, scan the
manifests, then append one expanded block plus `"\n"` per table name to
the header buffer.  Returns the buffer passed to `file.write`, or the
first error raised. -/
def generate_migration : GenInput → Except GenError (List Char)
  | ⟨none, _⟩ => .error .missingTemplate
  | ⟨some _, none⟩ => .error .missingManifestsDir
  | ⟨some sql_template, some files⟩ =>
    match gatherTableNames files with
    | .error e => .error e
    | .ok table_names =>
      .ok (table_names.foldl
        (fun output_code t => output_code ++ (pyReplace tokenChars t sql_template ++ ['\n']))
        headerChars)

/-- Effect of one run on the output file
`V4__configure_timeseries_maintenance.sql`: on success the file is
opened with mode `'w'` and fully overwritten with the buffer; on any
error the write is never reached and the previous content survives. -/
def runFile (inp : GenInput) (prev : Option (List Char)) : Option (List Char) :=
  match generate_migration inp with
  | .error _ => prev
  | .ok out => some out

/-- A fully valid manifest directory: every file parses as a JSON array
and every record carries a `ProtoDefName`. -/
def validManifests (files : List (List (List Char))) : List (Option (List ManifestRecord)) :=
  files.map (fun rs => some (rs.map (fun p => ⟨some p⟩)))

theorem pySplitAux_ne_nil (pat : List Char) : ∀ (n : Nat) (s : List Char),
    pySplitAux pat n s ≠ [] := by
  intro n
  induction n with
  | zero => intro s; simp [pySplitAux]
  | succ n ih =>
    intro s
    cases s with
    | nil => simp [pySplitAux]
    | cons c rest =>
      rw [pySplitAux]
      split
      · simp
      · split
        · simp
        · simp

theorem pat_append_drop (pat : List Char) : ∀ (l : List Char),
    pat.isPrefixOf l = true → pat ++ l.drop pat.length = l := by
  induction pat with
  | nil => intro l _; simp
  | cons a as ih =>
    intro l h
    cases l with
    | nil => simp [List.isPrefixOf] at h
    | cons b bs =>
      simp only [List.isPrefixOf, Bool.and_eq_true, beq_iff_eq] at h
      obtain ⟨rfl, h2⟩ := h
      simp only [List.length_cons, List.drop_succ_cons, List.cons_append, List.cons.injEq,
        true_and]
      exact ih bs h2

theorem pyReplaceAux_eq_joinWith (pat rep : List Char) : ∀ (n : Nat) (s : List Char),
    pyReplaceAux pat rep n s = joinWith rep (pySplitAux pat n s) := by
  intro n
  induction n with
  | zero => intro s; simp [pyReplaceAux, pySplitAux, joinWith]
  | succ n ih =>
    intro s
    cases s with
    | nil => simp [pyReplaceAux, pySplitAux, joinWith]
    | cons c rest =>
      rw [pyReplaceAux, pySplitAux]
      split
      · have hne := pySplitAux_ne_nil pat n (rest.drop (pat.length - 1))
        obtain ⟨p, ps, hl⟩ := List.exists_cons_of_ne_nil hne
        rw [ih, hl]
        cases ps with
        | nil => simp [joinWith]
        | cons q qs => simp [joinWith]
      · have hne := pySplitAux_ne_nil pat n rest
        obtain ⟨p, ps, hl⟩ := List.exists_cons_of_ne_nil hne
        rw [ih, hl]
        cases ps with
        | nil => simp [joinWith]
        | cons q qs => simp [joinWith]

theorem joinWith_pySplitAux (pat : List Char) : ∀ (n : Nat) (s : List Char),
    joinWith pat (pySplitAux pat n s) = s := by
  intro n
  induction n with
  | zero => intro s; simp [pySplitAux, joinWith]
  | succ n ih =>
    intro s
    cases s with
    | nil => simp [pySplitAux, joinWith]
    | cons c rest =>
      rw [pySplitAux]
      split
      · rename_i h
        obtain ⟨hpat, hpre⟩ := h
        have hne := pySplitAux_ne_nil pat n (rest.drop (pat.length - 1))
        obtain ⟨p, ps, hl⟩ := List.exists_cons_of_ne_nil hne
        rw [hl]
        have hj : joinWith pat ([] :: p :: ps) = pat ++ joinWith pat (p :: ps) := by
          simp [joinWith]
        rw [hj, ← hl, ih]
        have hd : (c :: rest).drop pat.length = rest.drop (pat.length - 1) := by
          cases pat with
          | nil => exact absurd rfl hpat
          | cons a as => simp
        rw [← hd]
        exact pat_append_drop pat (c :: rest) hpre
      · have hne := pySplitAux_ne_nil pat n rest
        obtain ⟨p, ps, hl⟩ := List.exists_cons_of_ne_nil hne
        rw [hl]
        have hcons : joinWith pat ((c :: p) :: ps) = c :: joinWith pat (p :: ps) := by
          cases ps with
          | nil => simp [joinWith]
          | cons q qs => simp [joinWith]
        rw [hcons, ← hl, ih]

theorem pyReplaceAux_single (x y : Char) : ∀ (n : Nat) (s : List Char), s.length ≤ n →
    pyReplaceAux [x] [y] n s = s.map (fun c => if c = x then y else c) := by
  intro n
  induction n with
  | zero =>
    intro s hs
    have hnil : s = [] := List.eq_nil_of_length_eq_zero (Nat.le_zero.mp hs)
    subst hnil
    rfl
  | succ n ih =>
    intro s hs
    cases s with
    | nil => rfl
    | cons c rest =>
      rw [pyReplaceAux]
      by_cases hc : c = x
      · rw [if_pos ⟨by simp, by simp [List.isPrefixOf, hc]⟩]
        subst hc
        have hdrop : rest.drop ([c].length - 1) = rest := by simp
        rw [hdrop, List.singleton_append, List.map_cons, if_pos rfl]
        exact congrArg (y :: ·) (ih rest (Nat.le_of_succ_le_succ hs))
      · rw [if_neg (by simp [List.isPrefixOf]; intro h; exact hc h.symm)]
        simp only [List.map_cons, if_neg hc, List.cons.injEq, true_and]
        exact ih rest (Nat.le_of_succ_le_succ (by simpa using hs))

theorem deriveTableName_eq_map (p : List Char) :
    deriveTableName p = (p.map (fun c => if c = '.' then '_' else c)).map Char.toLower := by
  unfold deriveTableName pyReplace
  rw [pyReplaceAux_single '.' '_' p.length p (Nat.le_refl _)]

theorem isUpper_iff (c : Char) : c.isUpper = true ↔ 65 ≤ c.toNat ∧ c.toNat ≤ 90 := by
  simp [Char.isUpper, Char.toNat, UInt32.le_def, BitVec.le_def, UInt32.toNat]

theorem toLower_not_isUpper (c : Char) : (Char.toLower c).isUpper = false := by
  by_cases h : 65 ≤ c.toNat ∧ c.toNat ≤ 90
  · obtain ⟨h1, h2⟩ := h
    rw [Char.toLower]
    rw [if_pos ⟨h1, h2⟩]
    generalize hn : c.toNat = n at h1 h2
    interval_cases n <;> decide
  · rw [Char.toLower]
    rw [if_neg h]
    rw [Bool.eq_false_iff]
    intro hu
    exact h ((isUpper_iff c).mp hu)

theorem toLower_ne_dot (c : Char) (hc : c ≠ '.') : Char.toLower c ≠ '.' := by
  by_cases h : 65 ≤ c.toNat ∧ c.toNat ≤ 90
  · obtain ⟨h1, h2⟩ := h
    rw [Char.toLower]
    rw [if_pos ⟨h1, h2⟩]
    generalize hn : c.toNat = n at h1 h2
    interval_cases n <;> decide
  · rw [Char.toLower]
    rw [if_neg h]
    exact hc

theorem foldl_append_flatten (g : List Char → List Char) :
    ∀ (l : List (List Char)) (init : List Char),
      l.foldl (fun acc t => acc ++ g t) init = init ++ (l.map g).flatten := by
  intro l
  induction l with
  | nil => intro init; simp
  | cons a as ih =>
    intro init
    simp only [List.foldl_cons, List.map_cons, List.flatten_cons, ih, List.append_assoc]

theorem generate_migration_eq_ok (tpl : List Char) (files : List (Option (List ManifestRecord)))
    (ns : List (List Char)) (h : gatherTableNames files = .ok ns) :
    generate_migration ⟨some tpl, some files⟩
      = .ok (headerChars ++ (ns.map (fun t => pyReplace tokenChars t tpl ++ ['\n'])).flatten) := by
  simp only [generate_migration, h]
  rw [foldl_append_flatten (fun t => pyReplace tokenChars t tpl ++ ['\n']) ns headerChars]

theorem gatherFromFile_valid : ∀ ps : List (List Char),
    gatherFromFile (ps.map (fun p => ⟨some p⟩)) = .ok (ps.map deriveTableName) := by
  intro ps
  induction ps with
  | nil => rfl
  | cons p rest ih =>
    simp only [List.map_cons, gatherFromFile, ih]

theorem gatherTableNames_valid : ∀ files : List (List (List Char)),
    gatherTableNames (validManifests files) = .ok (files.flatten.map deriveTableName) := by
  intro files
  induction files with
  | nil => rfl
  | cons rs fs ih =>
    simp only [validManifests, List.map_cons] at ih ⊢
    rw [gatherTableNames, gatherFromFile_valid rs, ih]
    simp [List.flatten_cons, List.map_append]

theorem gatherFromFile_mem : ∀ (rs : List ManifestRecord) (ns : List (List Char)),
    gatherFromFile rs = .ok ns → ∀ nm ∈ ns, ∃ p, nm = deriveTableName p := by
  intro rs
  induction rs with
  | nil =>
    intro ns h nm hm
    simp only [gatherFromFile, Except.ok.injEq] at h
    subst h
    simp at hm
  | cons r rest ih =>
    intro ns h nm hm
    rw [gatherFromFile] at h
    cases hr : r.ProtoDefName with
    | none => rw [hr] at h; simp at h
    | some p =>
      rw [hr] at h
      cases hg : gatherFromFile rest with
      | error e => rw [hg] at h; simp at h
      | ok names =>
        rw [hg] at h
        simp only [Except.ok.injEq] at h
        subst h
        rcases List.mem_cons.mp hm with heq | hmem
        · exact ⟨p, heq⟩
        · exact ih names hg nm hmem

theorem gatherTableNames_mem : ∀ (files : List (Option (List ManifestRecord)))
    (ns : List (List Char)),
    gatherTableNames files = .ok ns → ∀ nm ∈ ns, ∃ p, nm = deriveTableName p := by
  intro files
  induction files with
  | nil =>
    intro ns h nm hm
    simp only [gatherTableNames, Except.ok.injEq] at h
    subst h
    simp at hm
  | cons f fs ih =>
    intro ns h nm hm
    cases f with
    | none => rw [gatherTableNames] at h; simp at h
    | some rs =>
      rw [gatherTableNames] at h
      cases hg : gatherFromFile rs with
      | error e => rw [hg] at h; simp at h
      | ok names =>
        rw [hg] at h
        cases hrest : gatherTableNames fs with
        | error e => rw [hrest] at h; simp at h
        | ok rest =>
          rw [hrest] at h
          simp only [Except.ok.injEq] at h
          subst h
          rcases List.mem_append.mp hm with hmem | hmem
          · exact gatherFromFile_mem rs names hg nm hmem
          · exact ih rest hrest nm hmem

theorem gather_all_empty : ∀ files : List (Option (List ManifestRecord)),
    (∀ f ∈ files, f = some []) → gatherTableNames files = .ok [] := by
  intro files
  induction files with
  | nil => intro _; rfl
  | cons f fs ih =>
    intro h
    have hf := h f (List.mem_cons_self f fs)
    rw [hf]
    have htail := ih (fun g hg => h g (List.mem_cons_of_mem f hg))
    rw [gatherTableNames]
    rw [show gatherFromFile [] = .ok [] from rfl, htail]
    rfl

theorem append_flatten_ends : ∀ (l : List (List Char)) (z : List Char),
    (∀ b ∈ l, ∃ w, b = w ++ ['\n']) → (∃ w, z = w ++ ['\n']) →
    ∃ w, z ++ l.flatten = w ++ ['\n'] := by
  intro l
  induction l with
  | nil => intro z _ hz; simpa using hz
  | cons b bs ih =>
    intro z hl hz
    obtain ⟨wb, hwb⟩ := hl b (List.mem_cons_self b bs)
    have hassoc : z ++ (b :: bs).flatten = (z ++ b) ++ bs.flatten := by
      simp [List.flatten_cons, List.append_assoc]
    rw [hassoc]
    apply ih (z ++ b) (fun q hq => hl q (List.mem_cons_of_mem b hq))
    exact ⟨z ++ wb, by rw [hwb, List.append_assoc]⟩

theorem deriveTableName_chars (p : List Char) :
    ∀ c ∈ deriveTableName p, c ≠ '.' ∧ c.isUpper = false := by
  intro c hc
  rw [deriveTableName_eq_map] at hc
  obtain ⟨d, hd, rfl⟩ := List.mem_map.mp hc
  obtain ⟨e, _, rfl⟩ := List.mem_map.mp hd
  refine ⟨?_, toLower_not_isUpper _⟩
  apply toLower_ne_dot
  by_cases he : e = '.'
  · rw [if_pos he]; decide
  · rw [if_neg he]; exact he

/-- C1: the written output file is the fixed header line
`-- Generated SQL code for configuring timeseries maintenance` followed by
each expanded text block in order separated by a blank line; in particular
for the template file containing `SELECT '{table_name}' AS t;` and the two
manifest entries `a.B` and `C.d`, the output is the header, a blank line,
the `a_b` block, a blank line, the `c_d` block, and a trailing blank line.
The general conjunct shows the accumulated buffer is always the header
prefix followed by the expanded blocks, each terminated by the appended
newline. -/
theorem output_file_assembly :
    generate_migration
        ⟨some "SELECT \x27{table_name}\x27 AS t;\n".toList,
          some [some [⟨some "a.B".toList⟩, ⟨some "C.d".toList⟩]]⟩
      = .ok ("-- Generated SQL code for configuring timeseries maintenance\n\nSELECT \x27a_b\x27 AS t;\n\nSELECT \x27c_d\x27 AS t;\n\n").toList
    ∧ ∀ (tpl : List Char) (files : List (Option (List ManifestRecord))) (ns : List (List Char)),
        gatherTableNames files = .ok ns →
        generate_migration ⟨some tpl, some files⟩
          = .ok (headerChars ++ (ns.map (fun t => pyReplace tokenChars t tpl ++ ['\n'])).flatten) :=
  ⟨rfl, fun tpl files ns h => generate_migration_eq_ok tpl files ns h⟩

theorem output_file_assembly_witness :
    gatherTableNames [] = Except.ok [] ∧
    generate_migration ⟨some "T".toList, some []⟩
      = .ok (headerChars ++ (([] : List (List Char)).map
          (fun t => pyReplace tokenChars t "T".toList ++ ['\n'])).flatten) :=
  ⟨rfl, output_file_assembly.2 "T".toList [] [] rfl⟩

/-- C2: a fully valid manifest directory with N records total yields exactly
N table names, in directory-listing order then within-file order, with no
deduplication (the name sequence is literally the per-record `map` of the
derivation over the concatenated records), and the generated buffer holds
one expanded block per record. -/
theorem record_count_and_order :
    ∀ (files : List (List (List Char))) (tpl : List Char),
      gatherTableNames (validManifests files) = .ok (files.flatten.map deriveTableName)
      ∧ (files.flatten.map deriveTableName).length = (files.map List.length).sum
      ∧ generate_migration ⟨some tpl, some (validManifests files)⟩
          = .ok (headerChars ++ ((files.flatten.map deriveTableName).map
              (fun t => pyReplace tokenChars t tpl ++ ['\n'])).flatten) :=
  fun files tpl =>
    ⟨gatherTableNames_valid files,
     by rw [List.length_map, List.length_flatten],
     generate_migration_eq_ok _ _ _ (gatherTableNames_valid files)⟩

/-- C3: the derived table name is exactly the `ProtoDefName` with every `.`
replaced by `_` and then lower-cased, character by character, with no other
normalization; in particular `foo.Bar.Baz` derives `foo_bar_baz`. -/
theorem table_name_derivation :
    deriveTableName "foo.Bar.Baz".toList = "foo_bar_baz".toList
    ∧ ∀ p : List Char,
        deriveTableName p = (p.map (fun c => if c = '.' then '_' else c)).map Char.toLower :=
  ⟨by decide, deriveTableName_eq_map⟩

/-- C4: whenever any stage before the write fails (missing template, missing
manifest directory, unparseable manifest file, or a record lacking
`ProtoDefName`), the run aborts with no write and the previous output file
content, if any, survives unchanged; the four error kinds are each raised by
the corresponding broken input. -/
theorem abort_leaves_previous_output :
    (∀ (inp : GenInput) (prev : Option (List Char)) (e : GenError),
        generate_migration inp = .error e → runFile inp prev = prev)
    ∧ (∀ mf, generate_migration ⟨none, mf⟩ = .error .missingTemplate)
    ∧ (∀ tpl, generate_migration ⟨some tpl, none⟩ = .error .missingManifestsDir)
    ∧ (∀ tpl fs, generate_migration ⟨some tpl, some (none :: fs)⟩ = .error .malformedManifest)
    ∧ (∀ tpl rs fs,
        generate_migration ⟨some tpl, some (some (⟨none⟩ :: rs) :: fs)⟩
          = .error .missingProtoDefName) := by
  refine ⟨?_, fun mf => rfl, fun tpl => rfl, fun tpl fs => rfl, fun tpl rs fs => rfl⟩
  intro inp prev e h
  unfold runFile
  rw [h]

theorem abort_leaves_previous_output_witness :
    generate_migration ⟨none, none⟩ = .error .missingTemplate
    ∧ runFile ⟨none, none⟩ (some "OLD".toList) = some "OLD".toList :=
  ⟨rfl, abort_leaves_previous_output.1 ⟨none, none⟩ (some "OLD".toList) .missingTemplate rfl⟩

/-- C5: template expansion replaces every left-to-right non-overlapping
occurrence of the token `{table_name}` with the same value (the expansion is
the fragments of the scan joined with the table name), and when the template
contains the token exactly once — the scan splits it into exactly two
fragments — the result is the template with that single occurrence replaced
and no other character altered. -/
theorem template_token_substitution :
    ∀ (tpl t : List Char),
      pyReplace tokenChars t tpl = joinWith t (pySplit tokenChars tpl)
      ∧ ∀ (a b : List Char), pySplit tokenChars tpl = [a, b] →
          tpl = a ++ tokenChars ++ b ∧ pyReplace tokenChars t tpl = a ++ t ++ b := by
  intro tpl t
  constructor
  · exact pyReplaceAux_eq_joinWith tokenChars t tpl.length tpl
  · intro a b h
    have h1 : tpl = joinWith tokenChars (pySplit tokenChars tpl) :=
      (joinWith_pySplitAux tokenChars tpl.length tpl).symm
    have h2 : pyReplace tokenChars t tpl = joinWith t (pySplit tokenChars tpl) :=
      pyReplaceAux_eq_joinWith tokenChars t tpl.length tpl
    rw [h] at h1 h2
    constructor
    · simpa [joinWith] using h1
    · simpa [joinWith] using h2

theorem template_token_substitution_witness :
    pySplit tokenChars "SELECT \x27{table_name}\x27 AS t;\n".toList
      = ["SELECT \x27".toList, "\x27 AS t;\n".toList]
    ∧ ("SELECT \x27{table_name}\x27 AS t;\n".toList
        = "SELECT \x27".toList ++ tokenChars ++ "\x27 AS t;\n".toList
      ∧ pyReplace tokenChars "a_b".toList "SELECT \x27{table_name}\x27 AS t;\n".toList
        = "SELECT \x27".toList ++ "a_b".toList ++ "\x27 AS t;\n".toList) :=
  ⟨rfl,
   (template_token_substitution "SELECT \x27{table_name}\x27 AS t;\n".toList "a_b".toList).2
     "SELECT \x27".toList "\x27 AS t;\n".toList rfl⟩

/-- C6: substitution is single-pass: expanding the template consisting of
exactly the token with any table name yields that name verbatim, even when
the name itself re-introduces the token text; concretely the name
`{table_name}x` produces the block `{table_name}x`, which still starts with
the literal token, while a second substitution pass would instead produce
the different string `{table_name}xx`. -/
theorem single_pass_no_rescan :
    (∀ t : List Char, pyReplace tokenChars t tokenChars = t)
    ∧ pyReplace tokenChars "{table_name}x".toList tokenChars = "{table_name}x".toList
    ∧ tokenChars.isPrefixOf ("{table_name}x".toList) = true
    ∧ pyReplace tokenChars "{table_name}x".toList ("{table_name}x".toList)
        = "{table_name}xx".toList
    ∧ "{table_name}x".toList ≠ "{table_name}xx".toList := by
  refine ⟨?_, rfl, rfl, rfl, by decide⟩
  intro t
  have h1 : pyReplace tokenChars t tokenChars = joinWith t (pySplit tokenChars tokenChars) :=
    pyReplaceAux_eq_joinWith tokenChars t tokenChars.length tokenChars
  have h2 : pySplit tokenChars tokenChars = [[], []] := rfl
  rw [h1, h2]
  simp [joinWith]

/-- C7: the generation function is deterministic in its modelled inputs
(template content plus manifest listing and contents): re-running it leaves
the output file unchanged, and on a successful run the resulting file
content does not depend on what was on disk before. -/
theorem rerun_deterministic :
    ∀ (inp : GenInput) (prev prev2 : Option (List Char)),
      runFile inp (runFile inp prev) = runFile inp prev
      ∧ ((generate_migration inp).isOk = true → runFile inp prev = runFile inp prev2) := by
  intro inp prev prev2
  constructor
  · unfold runFile
    cases h : generate_migration inp with
    | error e => rfl
    | ok out => rfl
  · intro hok
    unfold runFile
    cases h : generate_migration inp with
    | error e => rw [h] at hok; exact Bool.noConfusion hok
    | ok out => rfl

theorem rerun_deterministic_witness :
    (generate_migration ⟨some "T".toList, some []⟩).isOk = true
    ∧ runFile ⟨some "T".toList, some []⟩ none
      = runFile ⟨some "T".toList, some []⟩ (some "OLD".toList) :=
  ⟨rfl, (rerun_deterministic ⟨some "T".toList, some []⟩ none (some "OLD".toList)).2 rfl⟩

/-- C8: a successful run fully replaces the fixed-name output file: whatever
its previous content was, afterwards the file holds exactly the newly
assembled buffer, with no residual content. -/
theorem successful_write_overwrites :
    ∀ (inp : GenInput) (prev : Option (List Char)) (out : List Char),
      generate_migration inp = .ok out → runFile inp prev = some out := by
  intro inp prev out h
  unfold runFile
  rw [h]

theorem successful_write_overwrites_witness :
    generate_migration ⟨some "T".toList, some []⟩ = .ok headerChars
    ∧ runFile ⟨some "T".toList, some []⟩ (some "OLD".toList) = some headerChars :=
  ⟨rfl, successful_write_overwrites ⟨some "T".toList, some []⟩ (some "OLD".toList)
    headerChars rfl⟩

/-- C9: a manifest directory that yields zero records (no files, or only
files holding empty JSON arrays) still succeeds and writes exactly the
header line followed by one blank line and nothing else; moreover every
successful output buffer ends with a newline character. -/
theorem empty_manifests_header_only :
    (∀ (tpl : List Char) (files : List (Option (List ManifestRecord))),
        (∀ f ∈ files, f = some []) →
        generate_migration ⟨some tpl, some files⟩
          = .ok ("-- Generated SQL code for configuring timeseries maintenance\n\n".toList))
    ∧ ∀ (inp : GenInput) (out : List Char),
        generate_migration inp = .ok out → ∃ w, out = w ++ ['\n'] := by
  constructor
  · intro tpl files h
    have hg := gather_all_empty files h
    have hgen := generate_migration_eq_ok tpl files [] hg
    simpa using hgen
  · intro inp out h
    obtain ⟨tpl, mf⟩ := inp
    cases tpl with
    | none => simp [generate_migration] at h
    | some tplc =>
      cases mf with
      | none => simp [generate_migration] at h
      | some files =>
        cases hg : gatherTableNames files with
        | error e =>
          rw [generate_migration, hg] at h
          simp at h
        | ok ns =>
          have hgen := generate_migration_eq_ok tplc files ns hg
          rw [hgen] at h
          have hout : out
              = headerChars ++ (ns.map (fun t => pyReplace tokenChars t tplc ++ ['\n'])).flatten := by
            simp only [Except.ok.injEq] at h
            exact h.symm
          rw [hout]
          apply append_flatten_ends
          · intro b hb
            obtain ⟨t, ht, rfl⟩ := List.mem_map.mp hb
            exact ⟨pyReplace tokenChars t tplc, rfl⟩
          · exact ⟨"-- Generated SQL code for configuring timeseries maintenance\n".toList,
              by decide⟩

theorem empty_manifests_header_only_witness :
    generate_migration ⟨some "T".toList, some [some []]⟩
      = .ok ("-- Generated SQL code for configuring timeseries maintenance\n\n".toList)
    ∧ ∃ w, headerChars = w ++ ['\n'] :=
  ⟨empty_manifests_header_only.1 "T".toList [some []] (by intro f hf; simpa using hf),
   empty_manifests_header_only.2 ⟨some "T".toList, some [some []]⟩ headerChars rfl⟩

/-- C10: every table name appended to the accumulated sequence contains no
`.` character and no uppercase letter, whatever the `ProtoDefName` it was
derived from. -/
theorem derived_names_no_dot_no_upper :
    ∀ (files : List (Option (List ManifestRecord))) (ns : List (List Char)),
      gatherTableNames files = .ok ns →
      ∀ nm ∈ ns, ∀ c ∈ nm, c ≠ '.' ∧ c.isUpper = false := by
  intro files ns h nm hnm c hc
  obtain ⟨p, rfl⟩ := gatherTableNames_mem files ns h nm hnm
  exact deriveTableName_chars p c hc

theorem derived_names_no_dot_no_upper_witness :
    gatherTableNames [some [⟨some "a.B".toList⟩]] = .ok ["a_b".toList]
    ∧ (('a' : Char) ≠ '.' ∧ ('a' : Char).isUpper = false) :=
  ⟨rfl, derived_names_no_dot_no_upper [some [⟨some "a.B".toList⟩]] ["a_b".toList] rfl
      "a_b".toList (by decide) 'a' (by decide)⟩
